import Mathlib

/-!
Verification of the duckdb_demo storage-and-retrieval layer.

The repository has two Python files:
* `prepare.py` — creates a DuckDB table
  `texts(line_number INTEGER, filename VARCHAR, author VARCHAR, title VARCHAR,
         content VARCHAR, embedding FLOAT[], PRIMARY KEY (filename, line_number))`,
  parses text files, embeds their content lines and bulk-inserts them with
  `INSERT OR IGNORE`, counting `inserted = count_after - count_before` and
  `skipped = batch_size - inserted`.
* `find.py` — an interactive query loop that embeds a query string and runs
  `SELECT ... list_cosine_similarity(embedding, ?) AS similarity FROM texts
   ORDER BY similarity DESC LIMIT n`.

This file gives a shallow embedding of that logic.  The table is modelled as a
`List Record` in insertion order; `INSERT OR IGNORE` of one row is modelled as
an append guarded by a key-membership test (the PRIMARY KEY on
`(filename, line_number)` makes a duplicate-key insert a silent no-op), and
`executemany` is a left fold of that single-row insert.  Embedding vectors are
modelled as `List ℚ` (the code stores arbitrary-length float lists; exact
rationals keep the model executable and let the ranking facts be stated without
floating-point rounding).  Line numbers are `ℕ` (the code uses 1-based Python
ints well inside INTEGER range).
-/

/-- One row of the `texts` table created in `prepare.py` (`create_table`). -/
structure Record where
  line_number : Nat
  filename : String
  author : String
  title : String
  content : String
  embedding : List ℚ
deriving DecidableEq, Repr

/-- The primary key of a row: `(filename, line_number)`, as declared by
`PRIMARY KEY (filename, line_number)` in `create_table`. -/
def Record.key (r : Record) : String × Nat :=
  (r.filename, r.line_number)

/-- Does the store already hold a row with primary key `(fn, ln)`?
This is the duplicate test DuckDB performs for `INSERT OR IGNORE`. -/
def keyMem (st : List Record) (fn : String) (ln : Nat) : Bool :=
  st.any fun s => s.filename == fn && s.line_number == ln

/-- Semantics of `INSERT OR IGNORE` for a single row (`prepare.py` lines 140-143): if a row
with the same `(filename, line_number)` key exists the statement is a silent
no-op, otherwise the row is appended; the existing rows are never touched. -/
def insertRow (st : List Record) (r : Record) : List Record :=
  if keyMem st r.filename r.line_number then st else st ++ [r]

/-- Semantics of `conn.executemany(INSERT OR IGNORE ...)` over a batch: the rows are
processed one at a time in batch order, each through `insertRow`. -/
def insertBatch (st : List Record) (batch : List Record) : List Record :=
  batch.foldl insertRow st

/-- The reported `inserted_count = count_after - count_before`
(`prepare.py` lines 136-148):
the increase of `SELECT count(*) FROM texts` across the bulk insert. -/
def insertedCount (st : List Record) (batch : List Record) : Nat :=
  (insertBatch st batch).length - st.length

/-- The reported `skipped_count = len(data_to_insert) - inserted_count`
(`prepare.py` line 149). -/
def skippedCount (st : List Record) (batch : List Record) : Nat :=
  batch.length - insertedCount st batch

theorem insertRow_length_le (st : List Record) (r : Record) :
    st.length ≤ (insertRow st r).length := by
  unfold insertRow
  split <;> simp

theorem insertRow_length_le_succ (st : List Record) (r : Record) :
    (insertRow st r).length ≤ st.length + 1 := by
  unfold insertRow
  split <;> simp

theorem length_le_insertBatch (st : List Record) (batch : List Record) :
    st.length ≤ (insertBatch st batch).length := by
  induction batch generalizing st with
  | nil => simp [insertBatch]
  | cons r rest ih =>
      calc st.length ≤ (insertRow st r).length := insertRow_length_le st r
        _ ≤ (insertBatch (insertRow st r) rest).length := ih (insertRow st r)
        _ = (insertBatch st (r :: rest)).length := by simp [insertBatch]

theorem insertBatch_length_le (st : List Record) (batch : List Record) :
    (insertBatch st batch).length ≤ st.length + batch.length := by
  induction batch generalizing st with
  | nil => simp [insertBatch]
  | cons r rest ih =>
      have h1 : (insertBatch st (r :: rest)).length
          = (insertBatch (insertRow st r) rest).length := by simp [insertBatch]
      have h2 := ih (insertRow st r)
      have h3 := insertRow_length_le_succ st r
      have h4 : (r :: rest).length = rest.length + 1 := by simp
      omega

theorem keyMem_iff (st : List Record) (fn : String) (ln : Nat) :
    keyMem st fn ln = true ↔ ∃ s ∈ st, s.filename = fn ∧ s.line_number = ln := by
  simp [keyMem, List.any_eq_true]

theorem keyMem_false_iff (st : List Record) (fn : String) (ln : Nat) :
    keyMem st fn ln = false ↔ ∀ s ∈ st, ¬(s.filename = fn ∧ s.line_number = ln) := by
  rw [← Bool.not_eq_true, keyMem_iff]
  push_neg
  simp

theorem keyMem_append (st1 st2 : List Record) (fn : String) (ln : Nat) :
    keyMem (st1 ++ st2) fn ln = (keyMem st1 fn ln || keyMem st2 fn ln) := by
  simp [keyMem, List.any_append]

/-- A batch whose internal keys are distinct and none of whose keys is already
in the store is appended whole: `INSERT OR IGNORE` skips nothing. -/
theorem insertBatch_of_fresh (st : List Record) (batch : List Record)
    (hnd : (batch.map Record.key).Nodup)
    (hfresh : ∀ r ∈ batch, keyMem st r.filename r.line_number = false) :
    insertBatch st batch = st ++ batch := by
  induction batch generalizing st with
  | nil => simp [insertBatch]
  | cons r rest ih =>
      have hrow : insertRow st r = st ++ [r] := by
        unfold insertRow
        rw [if_neg]
        simp [hfresh r (List.mem_cons_self r rest)]
      have hnd2 : (Record.key r :: rest.map Record.key).Nodup := hnd
      have hnd' : (rest.map Record.key).Nodup := (List.nodup_cons.mp hnd2).2
      have hkey : Record.key r ∉ rest.map Record.key := (List.nodup_cons.mp hnd2).1
      have hfresh' : ∀ s ∈ rest, keyMem (st ++ [r]) s.filename s.line_number = false := by
        intro s hs
        rw [keyMem_append]
        have h1 : keyMem st s.filename s.line_number = false :=
          hfresh s (List.mem_cons_of_mem r hs)
        have h2 : keyMem [r] s.filename s.line_number = false := by
          rw [keyMem_false_iff]
          intro t ht hcontra
          have ht' : t = r := by simpa using ht


          subst ht'
          apply hkey
          have : Record.key t = Record.key s := by
            simp [Record.key, hcontra.1, hcontra.2]
          rw [this]
          exact List.mem_map_of_mem Record.key hs
        simp [h1, h2]
      calc insertBatch st (r :: rest) = insertBatch (st ++ [r]) rest := by
            simp [insertBatch, hrow]
        _ = (st ++ [r]) ++ rest := ih (st ++ [r]) hnd' hfresh'
        _ = st ++ (r :: rest) := by simp

/-- A batch all of whose keys are already present leaves the store unchanged. -/
theorem insertBatch_of_dup (st : List Record) (batch : List Record)
    (hall : ∀ r ∈ batch, keyMem st r.filename r.line_number = true) :
    insertBatch st batch = st := by
  induction batch with
  | nil => simp [insertBatch]
  | cons r rest ih =>
      have hrow : insertRow st r = st := by
        unfold insertRow
        rw [if_pos (hall r (List.mem_cons_self r rest))]
      have : insertBatch st (r :: rest) = insertBatch st rest := by
        simp [insertBatch, hrow]
      rw [this]
      exact ih fun r hr => hall r (List.mem_cons_of_mem _ hr)

/-- The bulk insert only ever appends rows, and every appended row had a key
that was absent from the original store. -/
theorem insertBatch_decomp (st : List Record) (batch : List Record) :
    ∃ rest, insertBatch st batch = st ++ rest ∧
      (∀ r ∈ rest, keyMem st r.filename r.line_number = false ∧ r ∈ batch) := by
  induction batch generalizing st with
  | nil => exact ⟨[], by simp [insertBatch], by simp⟩
  | cons r bs ih =>
      have hstep : insertBatch st (r :: bs) = insertBatch (insertRow st r) bs := by
        simp [insertBatch]
      by_cases hk : keyMem st r.filename r.line_number = true
      · have hrow : insertRow st r = st := by unfold insertRow; rw [if_pos hk]
        obtain ⟨rest, heq, hprop⟩ := ih st
        exact ⟨rest, by rw [hstep, hrow, heq], fun s hs =>
          ⟨(hprop s hs).1, List.mem_cons_of_mem _ (hprop s hs).2⟩⟩
      · have hk' : keyMem st r.filename r.line_number = false := by
          simpa using hk
        have hrow : insertRow st r = st ++ [r] := by unfold insertRow; rw [if_neg hk]
        obtain ⟨rest, heq, hprop⟩ := ih (st ++ [r])
        refine ⟨r :: rest, ?_, ?_⟩
        · rw [hstep, hrow, heq]
          simp
        · intro s hs
          rcases List.mem_cons.mp hs with h | h
          · subst h
            exact ⟨hk', List.mem_cons_self _ _⟩
          · have h1 := (hprop s h).1
            rw [keyMem_append] at h1
            have h2 := Bool.or_eq_false_iff.mp h1
            exact ⟨h2.1, List.mem_cons_of_mem _ (hprop s h).2⟩

/-- A single `INSERT OR IGNORE` preserves the primary-key uniqueness of the
table: this is exactly what the PRIMARY KEY constraint enforces. -/
theorem insertRow_nodupKeys (st : List Record) (r : Record)
    (h : (st.map Record.key).Nodup) : ((insertRow st r).map Record.key).Nodup := by
  unfold insertRow
  split
  · exact h
  · rename_i hk
    have hk' : keyMem st r.filename r.line_number = false := by simpa using hk
    rw [List.map_append, List.nodup_append]
    refine ⟨h, by simp, ?_⟩
    intro a ha hb
    simp at hb
    obtain ⟨s, hs, hsk⟩ := List.mem_map.mp ha
    rw [keyMem_false_iff] at hk'
    apply hk' s hs
    have : s.key = r.key := by rw [hsk, hb]
    exact ⟨congrArg Prod.fst this, congrArg Prod.snd this⟩

theorem insertBatch_nodupKeys (st : List Record) (batch : List Record)
    (h : (st.map Record.key).Nodup) :
    ((insertBatch st batch).map Record.key).Nodup := by
  induction batch generalizing st with
  | nil => simpa [insertBatch] using h
  | cons r rest ih =>
      have : insertBatch st (r :: rest) = insertBatch (insertRow st r) rest := by
        simp [insertBatch]
      rw [this]
      exact ih (insertRow st r) (insertRow_nodupKeys st r h)

theorem keyMem_insertRow_of (st : List Record) (r' : Record) (fn : String) (ln : Nat)
    (h : keyMem st fn ln = true) : keyMem (insertRow st r') fn ln = true := by
  unfold insertRow
  split
  · exact h
  · rw [keyMem_append, h, Bool.true_or]

theorem keyMem_insertRow_self (st : List Record) (r : Record) :
    keyMem (insertRow st r) r.filename r.line_number = true := by
  unfold insertRow
  split
  · assumption
  · rw [keyMem_append, Bool.or_eq_true]
    right
    simp [keyMem]

theorem keyMem_insertBatch_of (st : List Record) (batch : List Record)
    (fn : String) (ln : Nat)
    (h : keyMem st fn ln = true) : keyMem (insertBatch st batch) fn ln = true := by
  induction batch generalizing st with
  | nil => simpa [insertBatch] using h
  | cons r rest ih =>
      have hstep : insertBatch st (r :: rest) = insertBatch (insertRow st r) rest := by
        simp [insertBatch]
      rw [hstep]
      exact ih (insertRow st r) (keyMem_insertRow_of st r fn ln h)

/-- After the bulk insert, every key of the batch is present in the store:
a duplicate early in the batch never aborts the later inserts. -/
theorem keyMem_insertBatch_batchMem (st : List Record) (batch : List Record) :
    ∀ r ∈ batch, keyMem (insertBatch st batch) r.filename r.line_number = true := by
  induction batch generalizing st with
  | nil => intro r hr; simp at hr
  | cons b bs ih =>
      intro r hr
      have hstep : insertBatch st (b :: bs) = insertBatch (insertRow st b) bs := by
        simp [insertBatch]
      rw [hstep]
      rcases List.mem_cons.mp hr with h | h
      · subst h
        exact keyMem_insertBatch_of _ bs _ _ (keyMem_insertRow_self st r)
      · exact ih (insertRow st b) r h

/-- Key lookup, `SELECT ... WHERE filename = fn AND line_number = ln`, on the
model:
the first (and, under the key invariant, only) row with the given key. -/
def lookupKey (st : List Record) (fn : String) (ln : Nat) : Option Record :=
  st.find? fun s => s.filename == fn && s.line_number == ln

theorem find?_append_of_some {l1 l2 : List Record} {p : Record → Bool} {a : Record}
    (h : l1.find? p = some a) : (l1 ++ l2).find? p = some a := by
  induction l1 with
  | nil => simp [List.find?] at h
  | cons x xs ih =>
      cases hpx : p x with
      | true =>
          rw [List.find?_cons_of_pos _ hpx] at h
          rw [List.cons_append, List.find?_cons_of_pos _ hpx]
          exact h
      | false =>
          rw [List.find?_cons_of_neg _ (by simp [hpx])] at h
          rw [List.cons_append, List.find?_cons_of_neg _ (by simp [hpx])]
          exact ih h

/-- Sample rows used by the concrete witnesses (the "a.txt" scenario of the
spec's example: two content lines of one document). -/
def rec1 : Record :=
  { line_number := 1, filename := "a.txt", author := "A", title := "T"
    content := "the cat sat", embedding := [1, 2, 3] }

def rec2 : Record :=
  { line_number := 2, filename := "a.txt", author := "A", title := "T"
    content := "a dog ran", embedding := [4, 5, 6] }

/-- A row with the same primary key as `rec1` but different fields, used to
exercise the first-write-wins behaviour. -/
def recDup : Record :=
  { line_number := 1, filename := "a.txt", author := "B", title := "U"
    content := "an overwrite attempt", embedding := [9, 9] }

/-- C9: for every batch insertion the reported counts partition the batch,
`inserted_count + skipped_count = N`, and `inserted_count` is exactly the
increase of the store's total row count caused by the batch. -/
theorem insert_counts_partition (st batch : List Record) :
    insertedCount st batch + skippedCount st batch = batch.length ∧
    (insertBatch st batch).length = st.length + insertedCount st batch := by
  have h1 := length_le_insertBatch st batch
  have h2 := insertBatch_length_le st batch
  unfold skippedCount insertedCount
  omega

/-- C1: ingesting a document of `N` content lines (distinct keys, none already
stored) inserts all `N` rows and reports `(N, 0)`; ingesting the identical
document a second time inserts nothing and reports `(0, N)`.  The counts are
the code's own pre/post `count(*)` difference and batch-size remainder. -/
theorem ingest_twice_counts (st batch : List Record)
    (hnd : (batch.map Record.key).Nodup)
    (hfresh : ∀ r ∈ batch, keyMem st r.filename r.line_number = false) :
    insertedCount st batch = batch.length ∧ skippedCount st batch = 0 ∧
    insertedCount (insertBatch st batch) batch = 0 ∧
    skippedCount (insertBatch st batch) batch = batch.length := by
  have heq := insertBatch_of_fresh st batch hnd hfresh
  have hins : insertedCount st batch = batch.length := by
    unfold insertedCount
    rw [heq]
    simp
  have hall := keyMem_insertBatch_batchMem st batch
  have heq2 : insertBatch (insertBatch st batch) batch = insertBatch st batch :=
    insertBatch_of_dup _ _ hall
  have hins2 : insertedCount (insertBatch st batch) batch = 0 := by
    unfold insertedCount
    rw [heq2]
    simp
  refine ⟨hins, ?_, hins2, ?_⟩
  · unfold skippedCount
    rw [hins]
    simp
  · unfold skippedCount
    rw [hins2]
    simp

theorem ingest_twice_counts_witness :
    insertedCount [] [rec1, rec2] = 2 ∧ skippedCount [] [rec1, rec2] = 0 ∧
    insertedCount (insertBatch [] [rec1, rec2]) [rec1, rec2] = 0 ∧
    skippedCount (insertBatch [] [rec1, rec2]) [rec1, rec2] = 2 := by
  have h := ingest_twice_counts [] [rec1, rec2] (by decide) (by decide)
  simpa using h

/-- C2: `(filename, line_number)` is a primary key.  Starting from a store
with pairwise-distinct keys: (i) single-row and (ii) whole-batch inserts
preserve key distinctness, so the store never holds two rows with one key;
(iii) the batch only appends, never rewriting an existing row;
(iv) a key already stored still resolves to its original row afterwards
(first write wins, fields including content and embedding untouched);
(v) every key of the batch is present afterwards — a duplicate never aborts
the insertion of the rest of the batch. -/
theorem primary_key_invariant (st batch : List Record)
    (hnd : (st.map Record.key).Nodup) :
    (∀ r, ((insertRow st r).map Record.key).Nodup) ∧
    ((insertBatch st batch).map Record.key).Nodup ∧
    (∃ rest, insertBatch st batch = st ++ rest) ∧
    (∀ fn ln r0, lookupKey st fn ln = some r0 →
      lookupKey (insertBatch st batch) fn ln = some r0) ∧
    (∀ r ∈ batch, keyMem (insertBatch st batch) r.filename r.line_number = true) := by
  obtain ⟨rest, heq, -⟩ := insertBatch_decomp st batch
  refine ⟨fun r => insertRow_nodupKeys st r hnd,
    insertBatch_nodupKeys st batch hnd, ⟨rest, heq⟩, ?_,
    keyMem_insertBatch_batchMem st batch⟩
  intro fn ln r0 h0
  rw [heq]
  exact find?_append_of_some h0

theorem primary_key_invariant_witness :
    (∀ r, ((insertRow [rec1] r).map Record.key).Nodup) ∧
    ((insertBatch [rec1] [recDup, rec2]).map Record.key).Nodup ∧
    (∃ rest, insertBatch [rec1] [recDup, rec2] = [rec1] ++ rest) ∧
    (∀ fn ln r0, lookupKey [rec1] fn ln = some r0 →
      lookupKey (insertBatch [rec1] [recDup, rec2]) fn ln = some r0) ∧
    (∀ r ∈ [recDup, rec2],
      keyMem (insertBatch [rec1] [recDup, rec2]) r.filename r.line_number = true) :=
  primary_key_invariant [rec1] [recDup, rec2] (by decide)

/-! ### The query side (`find.py`)

The SQL query
`SELECT ..., list_cosine_similarity(embedding, ?) AS similarity FROM texts
 ORDER BY similarity DESC LIMIT ?`
scores every stored row against the query vector and keeps the `n` best.
The similarity function itself is DuckDB's built-in `list_cosine_similarity`,
an external float routine; the ranking facts below hold for an arbitrary
scoring function `sim`, which is how the model keeps them independent of the
engine's float arithmetic.  `ORDER BY ... DESC` is modelled as a (stable)
sort by descending score followed by `take n`; every property proved below is
invariant under how the engine resolves ties, so the choice of a stable sort
is immaterial to them. -/

/-- One scored row: the `SELECT` list pairs each stored row with
`list_cosine_similarity(embedding, query)`. -/
def scoreRows (sim : List ℚ → List ℚ → ℚ) (st : List Record) (v : List ℚ) :
    List (Record × ℚ) :=
  st.map fun r => (r, sim r.embedding v)

/-- The comparison of `ORDER BY similarity DESC`: earlier rows score at least
as high as later ones. -/
def simDesc (a b : Record × ℚ) : Prop :=
  b.2 ≤ a.2

instance : DecidableRel simDesc := fun a b =>
  inferInstanceAs (Decidable (b.2 ≤ a.2))

instance : IsTotal (Record × ℚ) simDesc :=
  ⟨fun a b => le_total b.2 a.2⟩

instance : IsTrans (Record × ℚ) simDesc :=
  ⟨fun _ _ _ hab hbc => le_trans hbc hab⟩

/-- The query `ORDER BY similarity DESC LIMIT k` over the whole table. -/
def search (sim : List ℚ → List ℚ → ℚ) (st : List Record) (v : List ℚ)
    (k : Nat) : List (Record × ℚ) :=
  (List.insertionSort simDesc (scoreRows sim st v)).take k

/-- C3: `search` returns `min k N` rows in descending-similarity order, each a
stored row paired with its own score; together with some list of omitted rows
it is a permutation of the whole scored table, and every omitted row scores no
higher than any returned row (the result is a top-k); when `k` covers the
table the result is a permutation of the entire table (every record exactly
once); an empty store yields the empty list, not an error. -/
theorem search_topk (sim : List ℚ → List ℚ → ℚ) (st : List Record)
    (v : List ℚ) (k : Nat) :
    (search sim st v k).length = min k st.length ∧
    List.Sorted simDesc (search sim st v k) ∧
    (∀ p ∈ search sim st v k, p.1 ∈ st ∧ p.2 = sim p.1.embedding v) ∧
    (∃ omitted, (search sim st v k ++ omitted).Perm (scoreRows sim st v) ∧
      ∀ p ∈ search sim st v k, ∀ q ∈ omitted, q.2 ≤ p.2) ∧
    (st.length ≤ k → (search sim st v k).Perm (scoreRows sim st v)) ∧
    (st = [] → search sim st v k = []) := by
  have hperm : (List.insertionSort simDesc (scoreRows sim st v)).Perm
      (scoreRows sim st v) := List.perm_insertionSort simDesc _
  have hsorted : List.Sorted simDesc
      (List.insertionSort simDesc (scoreRows sim st v)) :=
    List.sorted_insertionSort simDesc _
  have hlenS : (scoreRows sim st v).length = st.length := by
    simp [scoreRows]
  have hlen : (List.insertionSort simDesc (scoreRows sim st v)).length
      = st.length := by
    rw [hperm.length_eq, hlenS]
  refine ⟨?_, ?_, ?_, ?_, ?_, ?_⟩
  · rw [search, List.length_take, hlen]
  · exact List.Pairwise.sublist (List.take_sublist k _) hsorted
  · intro p hp
    have hp1 : p ∈ List.insertionSort simDesc (scoreRows sim st v) :=
      List.mem_of_mem_take hp
    have hp2 : p ∈ scoreRows sim st v := hperm.mem_iff.mp hp1
    obtain ⟨r, hr, hrp⟩ := List.mem_map.mp hp2
    constructor
    · rw [← hrp]
      exact hr
    · rw [← hrp]
  · refine ⟨(List.insertionSort simDesc (scoreRows sim st v)).drop k, ?_, ?_⟩
    · rw [search, List.take_append_drop]
      exact hperm
    · intro p hp q hq
      have hsplit : List.Pairwise simDesc
          ((List.insertionSort simDesc (scoreRows sim st v)).take k ++
            (List.insertionSort simDesc (scoreRows sim st v)).drop k) := by
        rw [List.take_append_drop]
        exact hsorted
      exact (List.pairwise_append.mp hsplit).2.2 p hp q hq
  · intro hk
    have : (List.insertionSort simDesc (scoreRows sim st v)).take k
        = List.insertionSort simDesc (scoreRows sim st v) :=
      List.take_of_length_le (by rw [hlen]; exact hk)
    rw [search, this]
    exact hperm
  · intro hst
    subst hst
    simp [search, scoreRows, List.insertionSort]

/-- A rational stand-in scoring function used only to instantiate the ranking
theorem on concrete data: the dot product of the two vectors. -/
def dotScore (a b : List ℚ) : ℚ :=
  ((a.zip b).map fun p => p.1 * p.2).sum

theorem search_topk_witness :
    (search dotScore [rec1, rec2] [1, 2, 3] 5).length = min 5 [rec1, rec2].length ∧
    List.Sorted simDesc (search dotScore [rec1, rec2] [1, 2, 3] 5) ∧
    (∀ p ∈ search dotScore [rec1, rec2] [1, 2, 3] 5,
      p.1 ∈ [rec1, rec2] ∧ p.2 = dotScore p.1.embedding [1, 2, 3]) ∧
    (∃ omitted, (search dotScore [rec1, rec2] [1, 2, 3] 5 ++ omitted).Perm
        (scoreRows dotScore [rec1, rec2] [1, 2, 3]) ∧
      ∀ p ∈ search dotScore [rec1, rec2] [1, 2, 3] 5, ∀ q ∈ omitted, q.2 ≤ p.2) ∧
    ([rec1, rec2].length ≤ 5 → (search dotScore [rec1, rec2] [1, 2, 3] 5).Perm
        (scoreRows dotScore [rec1, rec2] [1, 2, 3])) ∧
    (([rec1, rec2] : List Record) = [] → search dotScore [rec1, rec2] [1, 2, 3] 5 = []) :=
  search_topk dotScore [rec1, rec2] [1, 2, 3] 5

/-! ### Dimension handling on the write path

`prepare.py` declares the embedding column as `FLOAT[]` — a list of arbitrary
length — and contains no check of the embedding's length anywhere between
`model.encode` and `executemany`; the row is passed to `INSERT OR IGNORE`
exactly as built. -/

/-- A row whose embedding length (2) disagrees with `rec1`'s (3), under a
fresh primary key. -/
def recMism : Record :=
  { line_number := 7, filename := "a.txt", author := "A", title := "T"
    content := "short vector", embedding := [1, 2] }

/-- C5 (counterexample): a row whose embedding length differs from every
stored embedding is not rejected before the write — it is inserted, so the
claimed pre-write dimension check does not exist in the ingestion path. -/
theorem dimension_check_counterexample :
    recMism.embedding.length ≠ rec1.embedding.length ∧
    insertBatch [rec1] [recMism] = [rec1, recMism] ∧
    recMism ∈ insertBatch [rec1] [recMism] := by
  refine ⟨by decide, by decide, by decide⟩

/-- C5 (amended): ingestion performs no dimension validation.  A row whose
key is fresh is appended verbatim whatever the length of its embedding —
never rejected, truncated or padded; its stored embedding is exactly the one
supplied. -/
theorem ingest_no_dimension_check (st : List Record) (r : Record)
    (hfresh : keyMem st r.filename r.line_number = false) :
    insertBatch st [r] = st ++ [r] ∧
    r ∈ insertBatch st [r] ∧
    (∀ s ∈ insertBatch st [r], s ∈ st ∨ s.embedding = r.embedding) := by
  have heq : insertBatch st [r] = st ++ [r] := by
    apply insertBatch_of_fresh
    · simp
    · intro s hs
      have : s = r := by simpa using hs
      subst this
      exact hfresh
  refine ⟨heq, by rw [heq]; simp, ?_⟩
  intro s hs
  rw [heq] at hs
  rcases List.mem_append.mp hs with h | h
  · exact Or.inl h
  · right
    have : s = r := by simpa using h
    rw [this]

theorem ingest_no_dimension_check_witness :
    insertBatch [rec1] [recMism] = [rec1] ++ [recMism] ∧
    recMism ∈ insertBatch [rec1] [recMism] ∧
    (∀ s ∈ insertBatch [rec1] [recMism], s ∈ [rec1] ∨ s.embedding = recMism.embedding) :=
  ingest_no_dimension_check [rec1] recMism (by decide)

/-! ### Per-file ingestion and failure propagation (`prepare.py` `main`)

The `for filename in files:` loop parses each file, embeds its content lines
in one `model.encode(texts)` call and bulk-inserts the rows.  The loop body
contains no `try`/`except`: an exception raised by the embedder for one file
propagates out of `main` and terminates the process, so the files after it
are never reached.  The embedder is modelled as a fallible function returning
`Except`; its failure short-circuits the run, exactly as an uncaught Python
exception does.  The failing file itself has no partial writes, because the
insert only happens after `model.encode` has returned. -/

/-- One parsed source document, as produced by `parse_file`:
filename, metadata, and the non-empty content lines with their 1-based
line numbers. -/
structure Doc where
  filename : String
  author : String
  title : String
  lines : List (Nat × String)
deriving DecidableEq, Repr

/-- The list `data_to_insert` of `prepare.py` (lines 128-133): one row per content
line, pairing each line with its embedding and copying the shared
filename/author/title into every row. -/
def buildRecords (d : Doc) (embs : List (List ℚ)) : List Record :=
  (d.lines.zip embs).map fun p =>
    { line_number := p.1.1, filename := d.filename, author := d.author,
      title := d.title, content := p.1.2, embedding := p.2 }

/-- The body of the per-file loop: skip files with no content lines
(`if not content_lines: continue`), otherwise embed the batch and insert,
reporting `(inserted, skipped)`.  An embedder failure is an uncaught
exception, modelled as `Except.error`. -/
def processFile (embed : List String → Except String (List (List ℚ)))
    (st : List Record) (d : Doc) : Except String (List Record × Nat × Nat) :=
  if d.lines = [] then Except.ok (st, 0, 0)
  else
    match embed (d.lines.map Prod.snd) with
    | Except.error e => Except.error e
    | Except.ok embs =>
        let recs := buildRecords d embs
        Except.ok (insertBatch st recs, insertedCount st recs, skippedCount st recs)

/-- The whole `for filename in files:` loop.  An `Except.error` from any
file's body propagates: the loop stops there (uncaught exception), the store
keeps only the rows written by the earlier files, and the error is the one
the process dies with. -/
def runIngest (embed : List String → Except String (List (List ℚ)))
    (st : List Record) : List Doc → List Record × Option String
  | [] => (st, none)
  | d :: ds =>
      match processFile embed st d with
      | Except.error e => (st, some e)
      | Except.ok (st2, _, _) => runIngest embed st2 ds

/-- A deterministic stub embedder that fails exactly when the batch contains
the text "bad line", and otherwise returns one fixed vector per text. -/
def failEmbed : List String → Except String (List (List ℚ)) := fun texts =>
  if "bad line" ∈ texts then Except.error "embedder failure"
  else Except.ok (texts.map fun _ => [1, 0])

/-- A document the stub embedder rejects. -/
def docBad : Doc :=
  { filename := "bad.txt", author := "A", title := "T", lines := [(1, "bad line")] }

/-- A document the stub embedder accepts. -/
def docGood : Doc :=
  { filename := "good.txt", author := "B", title := "U", lines := [(1, "fine line")] }

/-- C7 (counterexample): on its own, `docGood` ingests fine (one row); but
when `docBad` precedes it and the embedder fails on `docBad`'s batch, the
whole run stops with the error and `docGood` is never ingested — the loop has
no per-file exception handling, so one bad file does abort the rest of the
run, contradicting the claimed file-level isolation. -/
theorem file_isolation_counterexample :
    (runIngest failEmbed [] [docGood]).1.length = 1 ∧
    runIngest failEmbed [] [docBad, docGood] = ([], some "embedder failure") ∧
    ∀ r ∈ (runIngest failEmbed [] [docBad, docGood]).1, r.filename ≠ "good.txt" := by
  refine ⟨by decide, by decide, by decide⟩

/-- C7 (amended): when the embedder fails on one document's batch, that
document's ingestion is aborted with no partial writes for it — the store
is exactly what it was before the document — and the error surfaces; but the
run does not continue: the documents after it are never processed. -/
theorem embedder_failure_aborts_run
    (embed : List String → Except String (List (List ℚ)))
    (st : List Record) (d : Doc) (ds : List Doc) (e : String)
    (hne : d.lines ≠ [])
    (hfail : embed (d.lines.map Prod.snd) = Except.error e) :
    runIngest embed st (d :: ds) = (st, some e) := by
  unfold runIngest processFile
  rw [if_neg hne, hfail]

theorem embedder_failure_aborts_run_witness :
    runIngest failEmbed [] (docBad :: [docGood]) = ([], some "embedder failure") :=
  embedder_failure_aborts_run failEmbed [] docBad [docGood] "embedder failure"
    (by decide) rfl

/-! ### The interactive query loop (`find.py` lines 42-52)

Each iteration reads a line `query` and, in this order:
1. `if query.lower() in ('exit', 'quit'): break` — lowercasing happens
   before any whitespace stripping;
2. `if not query.strip(): continue` — a blank line is skipped: nothing is
   embedded, nothing is searched, no error, the loop just re-prompts;
3. otherwise the query is embedded and searched.

Strings are modelled as `List Char`; `str.lower` as a character-wise
lowercase map and `str.strip` as dropping whitespace from both ends
(Python's whitespace set restricted to its ASCII members, which is the
relevant fragment for the loop's control characters). -/

/-- The ASCII whitespace characters stripped by Python's `str.strip()`. -/
def isSpaceChar (c : Char) : Bool :=
  c == ' ' || c == '\t' || c == '\n' || c == '\r' || c == '\x0b' || c == '\x0c'

/-- Python's `str.strip()`: remove leading and trailing whitespace. -/
def stripChars (l : List Char) : List Char :=
  ((l.dropWhile isSpaceChar).reverse.dropWhile isSpaceChar).reverse

/-- Python's `str.lower()`: character-wise lowercasing. -/
def lowerChars (l : List Char) : List Char :=
  l.map Char.toLower

/-- What one loop iteration does with the input line: terminate, silently
re-prompt, or actually embed-and-search the query. -/
inductive LoopAction where
  | exitLoop : LoopAction
  | skip : LoopAction
  | runQuery : List Char → LoopAction
deriving DecidableEq, Repr

/-- One iteration of the `while True:` loop of `find.py`, given the line the
operator typed. -/
def loopStep (q : List Char) : LoopAction :=
  if lowerChars q = "exit".toList ∨ lowerChars q = "quit".toList then
    LoopAction.exitLoop
  else if stripChars q = [] then LoopAction.skip
  else LoopAction.runQuery q

theorem all_space_of_strip_nil (q : List Char) (h : stripChars q = []) :
    ∀ c ∈ q, isSpaceChar c = true := by
  intro c hc
  unfold stripChars at h
  have h1 : (q.dropWhile isSpaceChar).reverse.dropWhile isSpaceChar = [] := by
    have := congrArg List.reverse h
    simpa using this
  have h2 : ∀ x ∈ (q.dropWhile isSpaceChar).reverse, isSpaceChar x = true :=
    List.dropWhile_eq_nil_iff.mp h1
  have h3 : ∀ x ∈ q.dropWhile isSpaceChar, isSpaceChar x = true := by
    intro x hx
    exact h2 x (List.mem_reverse.mpr hx)
  have hq : c ∈ q.takeWhile isSpaceChar ++ q.dropWhile isSpaceChar := by
    rw [List.takeWhile_append_dropWhile]
    exact hc
  rcases List.mem_append.mp hq with hx | hx
  · exact List.mem_takeWhile_imp hx
  · exact h3 c hx

theorem toLower_of_space (c : Char) (h : isSpaceChar c = true) :
    Char.toLower c = c := by
  simp only [isSpaceChar, Bool.or_eq_true, beq_iff_eq] at h
  rcases h with ((((h | h) | h) | h) | h) | h <;> subst h <;> decide

/-- C8: a query line that is empty or whitespace-only is a pure no-op for the
iteration — it is neither treated as an exit command nor embedded nor
searched; the loop just continues to the next prompt. -/
theorem blank_query_skipped (q : List Char) (h : stripChars q = []) :
    loopStep q = LoopAction.skip ∧ ∀ q2, loopStep q ≠ LoopAction.runQuery q2 := by
  have hall := all_space_of_strip_nil q h
  have hlow : lowerChars q = q := by
    unfold lowerChars
    have hcong : ∀ c ∈ q, Char.toLower c = id c := fun c hc =>
      toLower_of_space c (hall c hc)
    rw [List.map_congr_left hcong, List.map_id]
  have hne : ¬(lowerChars q = "exit".toList ∨ lowerChars q = "quit".toList) := by
    rw [hlow]
    rintro (he | he)
    · have hmem : 'e' ∈ q := by
        rw [he]
        decide
      have := hall 'e' hmem
      exact absurd this (by decide)
    · have hmem : 'q' ∈ q := by
        rw [he]
        decide
      have := hall 'q' hmem
      exact absurd this (by decide)
  have hstep : loopStep q = LoopAction.skip := by
    unfold loopStep
    rw [if_neg hne, if_pos h]
  exact ⟨hstep, fun q2 => by rw [hstep]; simp⟩

theorem blank_query_skipped_witness :
    loopStep [' ', '\t'] = LoopAction.skip ∧
    ∀ q2, loopStep [' ', '\t'] ≠ LoopAction.runQuery q2 :=
  blank_query_skipped [' ', '\t'] (by decide)

/-- C10: an input line equal to "exit" or "quit" after lowercasing — the test
runs on the raw line, before any whitespace stripping — terminates the loop
at once and is never embedded or searched, so those two words themselves can
never reach the search engine as queries. -/
theorem exit_quit_terminates (q : List Char)
    (h : lowerChars q = "exit".toList ∨ lowerChars q = "quit".toList) :
    loopStep q = LoopAction.exitLoop ∧
    ∀ q2, loopStep q ≠ LoopAction.runQuery q2 := by
  have hstep : loopStep q = LoopAction.exitLoop := by
    unfold loopStep
    rw [if_pos h]
  exact ⟨hstep, fun q2 => by rw [hstep]; simp⟩

theorem exit_quit_terminates_witness :
    loopStep ['E', 'x', 'I', 't'] = LoopAction.exitLoop ∧
    ∀ q2, loopStep ['E', 'x', 'I', 't'] ≠ LoopAction.runQuery q2 :=
  exit_quit_terminates ['E', 'x', 'I', 't'] (by decide)
